import Mathlib

/-!
Verification of the signal-processing library: shallow embedding of the
signal types (`ZeroPaddedSignal`, `PeriodicSignal`, `MaximumLengthSequence`)
and the two algorithms (`linear_prediction`, `autocorrelation`), with
theorems settling the specified behaviours.

The generic numeric parameter `T` of the Rust code (bounded by
`num::traits::Num + Clone`) is modelled as a commutative ring `α`
(a `Field α` where the code divides).  Vectors become `List α`; fallible
indexing `Vec::get` becomes `l[i]?`.
-/

set_option maxHeartbeats 1000000

namespace SigProc

/-- Embeds `ZeroPaddedSignal<T>`: a finite prefix of values; indices outside the
prefix (including negative ones) read as the additive identity. -/
structure ZeroPaddedSignal (α : Type) where
  values : List α

namespace ZeroPaddedSignal

variable {α : Type} [CommRing α]

/-- Embeds `ZeroPaddedSignal::new`. -/
def new (values : List α) : ZeroPaddedSignal α := ⟨values⟩

/-- Embeds `ZeroPaddedSignal::size`: number of initialized values. -/
def size (s : ZeroPaddedSignal α) : Nat := s.values.length

/-- Embeds `ZeroPaddedSignal::get`: zero for a negative index, the stored element
for an initialized index, zero for an uninitialized one. -/
def get (s : ZeroPaddedSignal α) (idx : Int) : α :=
  if idx < 0 then 0
  else
    match s.values[idx.toNat]? with
    | some v => v
    | none => 0

/-- Embeds `ZeroPaddedSignal::to_vector`: the values from index `start` to index
`stop`, inclusive (empty when `start > stop`). -/
def to_vector (s : ZeroPaddedSignal α) (start stop : Int) : List α :=
  (List.range (stop + 1 - start).toNat).map (fun i => s.get (start + i))

/-- The inner accumulation of `ZeroPaddedSignal::linear_prediction` for one
output index `i`: fold over the coefficient indices, adding
`a[j] * get(i - (j+1))` when `a.get(j)` is `Some`. -/
def lpVal (s : ZeroPaddedSignal α) (a : List α) (i : Nat) : α :=
  (List.range a.length).foldl
    (fun (val : α) (j : Nat) =>
      match a[j]? with
      | some v => val + v * s.get ((i : Int) - ((j : Int) + 1))
      | none => val)
    0

/-- Embeds `ZeroPaddedSignal::linear_prediction`: a new signal of length
`size() + a.len()` whose `i`-th value is `lpVal s a i`. -/
def linear_prediction (s : ZeroPaddedSignal α) (a : List α) : ZeroPaddedSignal α :=
  ⟨(List.range (s.size + a.length)).map (lpVal s a)⟩

/-- Embeds `ZeroPaddedSignal::set`: push zeros until index `idx` exists, then
overwrite position `idx` with `val`. -/
def set (s : ZeroPaddedSignal α) (idx : Nat) (val : α) : ZeroPaddedSignal α :=
  ⟨(s.values ++ List.replicate (idx + 1 - s.values.length) 0).set idx val⟩

end ZeroPaddedSignal

/-- Embeds `PeriodicSignal<T>`: a buffer holding one period of an infinite
periodic signal; indexing wraps around the buffer. -/
structure PeriodicSignal (α : Type) where
  values : List α

namespace PeriodicSignal

variable {α : Type} [CommRing α]

/-- Embeds `PeriodicSignal::new`: wraps the given buffer, with no emptiness check. -/
def new (values : List α) : PeriodicSignal α := ⟨values⟩

/-- Embeds `PeriodicSignal::size`. -/
def size (s : PeriodicSignal α) : Nat := s.values.length

/-- The first loop of `PeriodicSignal::get`
(`while idx < 0 { idx += len }`), with explicit fuel: `none` means the
loop is still running after `fuel` iterations. -/
def reduceNeg (len : Nat) : Nat → Int → Option Int
  | 0, idx => if idx < 0 then none else some idx
  | fuel + 1, idx => if idx < 0 then reduceNeg len fuel (idx + len) else some idx

/-- The second loop of `PeriodicSignal::get`
(`while idx >= len { idx -= len }`), with explicit fuel. -/
def reduceMod (len : Nat) : Nat → Nat → Option Nat
  | 0, idx => if idx < len then some idx else none
  | fuel + 1, idx => if idx < len then some idx else reduceMod len fuel (idx - len)

/-- Embeds `PeriodicSignal::get` as written in the source: run both index-reduction
loops (with fuel), then read the buffer, substituting zero if the final
lookup misses.  `none` means `get` has not returned within `fuel`
iterations of either loop. -/
def getLoop (s : PeriodicSignal α) (fuel : Nat) (idx : Int) : Option α :=
  match reduceNeg s.values.length fuel idx with
  | none => none
  | some i =>
    match reduceMod s.values.length fuel i.toNat with
    | none => none
    | some j =>
      match s.values[j]? with
      | some v => some v
      | none => some 0

/-- The value `PeriodicSignal::get` returns whenever it terminates
(proved equal to the loop result below): the buffer element at the
non-negative residue of `idx` modulo the buffer length. -/
def get (s : PeriodicSignal α) (idx : Int) : α :=
  match s.values[(idx % (s.values.length : Int)).toNat]? with
  | some v => v
  | none => 0

/-- Predicate: `get` at `idx` never returns — both loops keep running whatever the
iteration bound. -/
def getDivergent (s : PeriodicSignal α) (idx : Int) : Prop :=
  ∀ fuel, getLoop s fuel idx = none

/-- The inner window-comparison loop of `PeriodicSignal::period` for a
candidate period `d`: every window `values[offset..offset+d]` for
`offset = d, 2d, ..., len-d` must equal the first window `values[0..d]`. -/
def windowsMatch [DecidableEq α] (values : List α) (d : Nat) : Bool :=
  (List.range' d (values.length / d - 1) d).all
    (fun offset => decide ((values.drop offset).take d = values.take d))

/-- Embeds `PeriodicSignal::period`: the first `d` in `[1, size)` that divides
`size` and whose windows all match; `size` itself if none does. -/
def period [DecidableEq α] (s : PeriodicSignal α) : Nat :=
  match (List.range' 1 (s.size - 1)).find?
      (fun d => decide (s.size % d = 0) && windowsMatch s.values d) with
  | some d => d
  | none => s.size

end PeriodicSignal

/-- Embeds `algorithms::autocorrelation`: for each lag `k < n`, accumulate
`sig.get(i) * sig.get(i+k)` over `i < n` in ascending order, divide by `n`
last, and wrap the results in a new `PeriodicSignal`.  The `f64` element
type of the source is modelled as a field with exact arithmetic; the
operation order of the code is preserved. -/
def autocorrelation {α : Type} [Field α] (sig : PeriodicSignal α) :
    PeriodicSignal α :=
  ⟨(List.range sig.size).map (fun k =>
      ((List.range sig.size).foldl
          (fun (val : α) (i : Nat) =>
            val + sig.get (i : Int) * sig.get ((i + k : Nat) : Int))
          0)
        / (sig.size : α))⟩

/-- Embeds `MaximumLengthSequence<T>`: an LFSR over boolean bits with the two
emitted symbols `val_false`/`val_true`. -/
structure MaximumLengthSequence (α : Type) where
  coefficients : List Bool
  state : List Bool
  val_false : α
  val_true : α

namespace MaximumLengthSequence

variable {α : Type} [CommRing α]

/-- Embeds `MaximumLengthSequence::next_state`: the new first bit is
`state[len-1]` XOR-folded with `state[len-(i+2)]` for every tap
`coefficients[i]`; the remaining bits are the old ones shifted right. -/
def next_state (state coefficients : List Bool) : List Bool :=
  ((List.range (state.length - 1)).foldl
      (fun (first : Bool) (i : Nat) =>
        if coefficients.getD i false
        then xor first (state.getD (state.length - (i + 2)) false)
        else first)
      (state.getD (state.length - 1) false))
    :: state.take (state.length - 1)

/-- Embeds `MaximumLengthSequence::new`: the two `assert!`s become `none`;
on success `val_false`/`val_true` start as zero/one. -/
def new (coefficients state : List Bool) :
    Option (MaximumLengthSequence α) :=
  if state.length > 0 then
    if coefficients.length + 1 = state.length then
      some ⟨coefficients, state, 0, 1⟩
    else none
  else none

/-- Embeds `MaximumLengthSequence::new_predefined`: ten fixed tap vectors for
orders 1..10; the `panic!` for any other order becomes `none`. -/
def new_predefined (order : Nat) (state : List Bool) :
    Option (MaximumLengthSequence α) :=
  if order = 1 then new [] state
  else if order = 2 then new [true] state
  else if order = 3 then new [true, false] state
  else if order = 4 then new [true, false, false] state
  else if order = 5 then new [false, true, false, false] state
  else if order = 6 then new [true, false, false, false, false] state
  else if order = 7 then new [true, false, false, false, false, false] state
  else if order = 8 then new [true, false, false, false, true, true, false] state
  else if order = 9 then
    new [false, false, false, true, false, false, false, false] state
  else if order = 10 then
    new [false, false, true, false, false, false, false, false, false] state
  else none

/-- Embeds `MaximumLengthSequence::set_vals`: replaces the two emitted symbols,
leaving `state` and `coefficients` untouched. -/
def set_vals (m : MaximumLengthSequence α) (vf vt : α) :
    MaximumLengthSequence α :=
  { m with val_false := vf, val_true := vt }

/-- Embeds `MaximumLengthSequence::next`: the emitted value for the output bit
`state[len-1]`, paired with the instance carrying the advanced state
(the `&mut self` side effect made explicit). -/
def next (m : MaximumLengthSequence α) : α × MaximumLengthSequence α :=
  ((if m.state.getD (m.state.length - 1) false then m.val_true else m.val_false),
   { m with state := next_state m.state m.coefficients })

/-- Runs `k` successive `next()` calls: the list of emitted values together
with the final instance. -/
def nextIter : MaximumLengthSequence α → Nat → List α × MaximumLengthSequence α
  | m, 0 => ([], m)
  | m, k + 1 =>
    let p := next m
    let r := nextIter p.2 k
    (p.1 :: r.1, r.2)

/-- The loop of `MaximumLengthSequence::to_vector`: sample the output bit
of the local `state`, advance it, repeat `k` times. -/
def toVectorAux (coefficients : List Bool) (vf vt : α) :
    List Bool → Nat → List α
  | _, 0 => []
  | st, k + 1 =>
    (if st.getD (st.length - 1) false then vt else vf)
      :: toVectorAux coefficients vf vt (next_state st coefficients) k

/-- Embeds `MaximumLengthSequence::to_vector`: `2^state.len() - 1` samples
starting from the state held at the time of the call. -/
def to_vector (m : MaximumLengthSequence α) : List α :=
  toVectorAux m.coefficients m.val_false m.val_true m.state
    (2 ^ m.state.length - 1)

/-- The tap XOR of the specification, written independently of the code:
XOR of `state[len-2-i]` over exactly the `i < len-1` whose coefficient
is set. -/
def tapFold (state coefficients : List Bool) : Bool :=
  (((List.range (state.length - 1)).filter
      (fun i => coefficients.getD i false)).map
    (fun i => state.getD (state.length - 2 - i) false)).foldr xor false

/-- The documented invariant: the state is one bit longer than the
coefficient vector, and in particular never empty. -/
def Invariant (m : MaximumLengthSequence α) : Prop :=
  m.state.length = m.coefficients.length + 1 ∧ m.state ≠ []

end MaximumLengthSequence

end SigProc

namespace SigProc

variable {α : Type} [CommRing α]

/-- A sum over `Finset.range n` is the sum of the mapped `List.range n`. -/
lemma sum_range_eq_list_sum (n : Nat) (f : Nat → α) :
    ∑ j ∈ Finset.range n, f j = ((List.range n).map f).sum := by
  induction n with
  | zero => simp
  | succ n ih => rw [Finset.sum_range_succ, List.range_succ]; simp [ih]

/-- Folding addition of `g` over a list, starting from `init`, is `init`
plus the sum of the mapped list. -/
lemma foldl_add_eq_sum (g : Nat → α) (l : List Nat) (init : α) :
    l.foldl (fun acc j => acc + g j) init = init + (l.map g).sum := by
  induction l generalizing init with
  | nil => simp
  | cons x xs ih => simp [ih, add_assoc]

/-- The fold in `lpVal` equals the closed-form sum of
`a[j] * get (i - (j+1))` over `j < a.length`. -/
lemma lpVal_eq_sum (s : ZeroPaddedSignal α) (a : List α) (i : Nat) :
    ZeroPaddedSignal.lpVal s a i =
      ∑ j ∈ Finset.range a.length, a.getD j 0 * s.get ((i : Int) - ((j : Int) + 1)) := by
  unfold ZeroPaddedSignal.lpVal
  rw [sum_range_eq_list_sum]
  have hfold :
      (List.range a.length).foldl
        (fun val j =>
          match a[j]? with
          | some v => val + v * s.get ((i : Int) - ((j : Int) + 1))
          | none => val)
        0 =
      (List.range a.length).foldl
        (fun val j => val + a.getD j 0 * s.get ((i : Int) - ((j : Int) + 1))) 0 := by
    apply List.foldl_ext
    intro acc j hj
    have hjlt : j < a.length := List.mem_range.mp hj
    have : a[j]? = some a[j] := List.getElem?_eq_getElem hjlt
    rw [this, List.getD_eq_getElem _ _ hjlt]
  rw [hfold, foldl_add_eq_sum, zero_add]

/-- C1: `linear_prediction(a)` on a signal of size `n` with `p` coefficients
yields a signal of length `n + p` whose value at every output index
`i < n + p` is `Σ_{j<p} a[j] * get (i - (j+1))`, where `get` zero-pads
outside the stored prefix. -/
theorem zps_linear_prediction_spec (s : ZeroPaddedSignal α) (a : List α) :
    (s.linear_prediction a).size = s.size + a.length ∧
    ∀ i : Nat, i < s.size + a.length →
      (s.linear_prediction a).get (i : Int) =
        ∑ j ∈ Finset.range a.length,
          a.getD j 0 * s.get ((i : Int) - ((j : Int) + 1)) := by
  constructor
  · simp [ZeroPaddedSignal.linear_prediction, ZeroPaddedSignal.size]
  · intro i hi
    have hnn : ¬ ((i : Int) < 0) := by simp
    unfold ZeroPaddedSignal.get ZeroPaddedSignal.linear_prediction
    simp only [hnn, if_false, Int.toNat_ofNat, List.getElem?_map,
      List.getElem?_range hi, Option.map_some]
    exact lpVal_eq_sum s a i

/-- Witness for C1 at the repository's own test input: the all-ones signal
of length 6 with coefficients `[4/5, 0, 0, -1/10]`, output index 4
(expected value 7/10). -/
theorem zps_linear_prediction_spec_witness :
    (4 : Nat) < (ZeroPaddedSignal.new ([1,1,1,1,1,1] : List ℚ)).size +
        ([4/5, 0, 0, -1/10] : List ℚ).length ∧
    ((ZeroPaddedSignal.new ([1,1,1,1,1,1] : List ℚ)).linear_prediction
        ([4/5, 0, 0, -1/10] : List ℚ)).get ((4 : Nat) : Int) =
      ∑ j ∈ Finset.range ([4/5, 0, 0, -1/10] : List ℚ).length,
        ([4/5, 0, 0, -1/10] : List ℚ).getD j 0 *
          (ZeroPaddedSignal.new ([1,1,1,1,1,1] : List ℚ)).get
            (((4 : Nat) : Int) - ((j : Int) + 1)) :=
  ⟨by decide,
   (zps_linear_prediction_spec (ZeroPaddedSignal.new ([1,1,1,1,1,1] : List ℚ))
      ([4/5, 0, 0, -1/10] : List ℚ)).2 4 (by decide)⟩

/-- C9: `set(idx, val)` zero-fills `[old_size, idx)`, stores `val` at `idx`,
grows the size to `max old_size (idx+1)`, and is idempotent. -/
theorem zps_set_spec (s : ZeroPaddedSignal α) (idx : Nat) (val : α) :
    (s.set idx val).size = max s.size (idx + 1) ∧
    (∀ k : Nat, s.size ≤ k → k < idx → (s.set idx val).get (k : Int) = 0) ∧
    (s.set idx val).get (idx : Int) = val ∧
    (s.set idx val).set idx val = s.set idx val := by
  refine ⟨?_, ?_, ?_, ?_⟩
  · simp only [ZeroPaddedSignal.set, ZeroPaddedSignal.size, List.length_set,
      List.length_append, List.length_replicate]
    omega
  · intro k hk hki
    have hkn : ¬ ((k : Int) < 0) := by simp
    unfold ZeroPaddedSignal.get ZeroPaddedSignal.set
    simp only [hkn, if_false, Int.toNat_ofNat]
    rw [List.getElem?_set_ne (by omega),
      List.getElem?_append_right (by simpa [ZeroPaddedSignal.size] using hk),
      List.getElem?_replicate_of_lt (by simp [ZeroPaddedSignal.size] at hk; omega)]
  · have hin : ¬ ((idx : Int) < 0) := by simp
    unfold ZeroPaddedSignal.get ZeroPaddedSignal.set
    simp only [hin, if_false, Int.toNat_ofNat]
    rw [List.getElem?_set_self (by simp [List.length_append]; omega)]
  · unfold ZeroPaddedSignal.set
    have hlen : ((s.values ++ List.replicate (idx + 1 - s.values.length) 0).set
        idx val).length = max s.values.length (idx + 1) := by
      simp only [List.length_set, List.length_append, List.length_replicate]
      omega
    rw [ZeroPaddedSignal.mk.injEq, hlen]
    have hz : idx + 1 - max s.values.length (idx + 1) = 0 := by omega
    rw [hz, List.replicate_zero, List.append_nil, List.set_set]

/-- Witness for C9 at the repository's own test input: `[5,7,11]`,
`set 5 12` (gap index 4 reads 0, index 5 reads 12). -/
theorem zps_set_spec_witness :
    ((ZeroPaddedSignal.new ([5,7,11] : List ℤ)).set 5 12).get ((4 : Nat) : Int) = 0 ∧
    ((ZeroPaddedSignal.new ([5,7,11] : List ℤ)).set 5 12).get ((5 : Nat) : Int) = 12 :=
  ⟨(zps_set_spec (ZeroPaddedSignal.new ([5,7,11] : List ℤ)) 5 12).2.1 4
      (by decide) (by decide),
   (zps_set_spec (ZeroPaddedSignal.new ([5,7,11] : List ℤ)) 5 12).2.2.1⟩

namespace PeriodicSignal

/-- A non-negative index exits the first loop at once, with any fuel. -/
lemma reduceNeg_nonneg (len fuel : Nat) (idx : Int) (h : 0 ≤ idx) :
    reduceNeg len fuel idx = some idx := by
  cases fuel <;> simp [reduceNeg, not_lt.mpr h]

/-- Whatever the first loop returns is non-negative and congruent to the
input modulo `len`. -/
lemma reduceNeg_sound (len : Nat) :
    ∀ (fuel : Nat) (idx r : Int), reduceNeg len fuel idx = some r →
      0 ≤ r ∧ r % (len : Int) = idx % (len : Int) := by
  intro fuel
  induction fuel with
  | zero =>
    intro idx r h
    by_cases hc : idx < 0 <;> simp [reduceNeg, hc] at h
    subst h
    exact ⟨not_lt.mp hc, rfl⟩
  | succ fuel ih =>
    intro idx r h
    by_cases hc : idx < 0
    · simp only [reduceNeg, if_pos hc] at h
      obtain ⟨h1, h2⟩ := ih (idx + len) r h
      refine ⟨h1, ?_⟩
      rw [h2]
      have hme := Int.add_mul_emod_self (a := idx) (b := 1) (c := (len : Int))
      simp only [one_mul] at hme
      exact hme
    · simp only [reduceNeg, if_neg hc] at h
      cases h
      exact ⟨not_lt.mp hc, rfl⟩

/-- With positive `len`, fuel `idx.natAbs` lets the first loop finish. -/
lemma reduceNeg_terminates (len : Nat) (hlen : 0 < len) :
    ∀ (k : Nat) (idx : Int), idx.natAbs ≤ k →
      ∃ r, reduceNeg len k idx = some r := by
  intro k
  induction k with
  | zero =>
    intro idx habs
    have h0 : idx = 0 := by omega
    exact ⟨0, by simp [h0, reduceNeg]⟩
  | succ k ih =>
    intro idx habs
    by_cases hc : idx < 0
    · rw [show reduceNeg len (k + 1) idx = reduceNeg len k (idx + len) from by
        simp [reduceNeg, hc]]
      by_cases hc2 : idx + len < 0
      · exact ih (idx + len) (by omega)
      · exact ⟨idx + len, reduceNeg_nonneg len k _ (not_lt.mp hc2)⟩
    · exact ⟨idx, reduceNeg_nonneg len (k + 1) idx (not_lt.mp hc)⟩

/-- More fuel never changes a first-loop result. -/
lemma reduceNeg_mono (len : Nat) :
    ∀ (f1 f2 : Nat) (idx r : Int), f1 ≤ f2 →
      reduceNeg len f1 idx = some r → reduceNeg len f2 idx = some r := by
  intro f1
  induction f1 with
  | zero =>
    intro f2 idx r _ h
    by_cases hc : idx < 0 <;> simp [reduceNeg, hc] at h
    subst h
    exact reduceNeg_nonneg len f2 idx (not_lt.mp hc)
  | succ f1 ih =>
    intro f2 idx r hle h
    by_cases hc : idx < 0
    · simp only [reduceNeg, if_pos hc] at h
      obtain ⟨g, rfl⟩ : ∃ g, f2 = g + 1 := ⟨f2 - 1, by omega⟩
      simp only [reduceNeg, if_pos hc]
      exact ih g (idx + len) r (by omega) h
    · simp only [reduceNeg, if_neg hc] at h
      cases h
      exact reduceNeg_nonneg len f2 idx (not_lt.mp hc)

/-- Whatever the second loop returns is below `len` and congruent to the
input modulo `len`. -/
lemma reduceMod_sound (len : Nat) :
    ∀ (fuel i j : Nat), reduceMod len fuel i = some j →
      j < len ∧ j % len = i % len := by
  intro fuel
  induction fuel with
  | zero =>
    intro i j h
    by_cases hc : i < len <;> simp [reduceMod, hc] at h
    subst h
    exact ⟨hc, rfl⟩
  | succ fuel ih =>
    intro i j h
    by_cases hc : i < len
    · simp only [reduceMod, if_pos hc] at h
      cases h
      exact ⟨hc, rfl⟩
    · simp only [reduceMod, if_neg hc] at h
      obtain ⟨h1, h2⟩ := ih (i - len) j h
      refine ⟨h1, ?_⟩
      rw [h2]
      conv_rhs => rw [show i = (i - len) + len from by omega]
      rw [Nat.add_mod_right]

/-- With positive `len`, fuel `i` lets the second loop finish. -/
lemma reduceMod_terminates (len : Nat) (hlen : 0 < len) :
    ∀ (k i : Nat), i ≤ k → ∃ j, reduceMod len k i = some j := by
  intro k
  induction k with
  | zero =>
    intro i hik
    have h0 : i = 0 := by omega
    exact ⟨0, by simp [h0, reduceMod, hlen]⟩
  | succ k ih =>
    intro i hik
    by_cases hc : i < len
    · exact ⟨i, by simp [reduceMod, hc]⟩
    · rw [show reduceMod len (k + 1) i = reduceMod len k (i - len) from by
        simp [reduceMod, hc]]
      exact ih (i - len) (by omega)

/-- More fuel never changes a second-loop result. -/
lemma reduceMod_mono (len : Nat) :
    ∀ (f1 f2 i j : Nat), f1 ≤ f2 →
      reduceMod len f1 i = some j → reduceMod len f2 i = some j := by
  intro f1
  induction f1 with
  | zero =>
    intro f2 i j _ h
    by_cases hc : i < len <;> simp [reduceMod, hc] at h
    subst h
    cases f2 <;> simp [reduceMod, hc]
  | succ f1 ih =>
    intro f2 i j hle h
    by_cases hc : i < len
    · simp only [reduceMod, if_pos hc] at h
      cases h
      cases f2 <;> simp [reduceMod, hc]
    · simp only [reduceMod, if_neg hc] at h
      obtain ⟨g, rfl⟩ : ∃ g, f2 = g + 1 := ⟨f2 - 1, by omega⟩
      simp only [reduceMod, if_neg hc]
      exact ih g (i - len) j (by omega) h

variable {α : Type} [CommRing α]

/-- Expresses `get` as a `getD` of the canonical residue. -/
lemma get_eq_getD (s : PeriodicSignal α) (idx : Int) :
    s.get idx = s.values.getD (idx % (s.values.length : Int)).toNat 0 := by
  unfold get
  rw [List.getD_eq_getElem?_getD]
  cases h : s.values[(idx % (s.values.length : Int)).toNat]? <;> simp [h]

/-- Whenever the source loops return, they return the canonical value. -/
lemma getLoop_some_eq (s : PeriodicSignal α) (idx : Int) (fuel : Nat) (v : α)
    (h : getLoop s fuel idx = some v) : v = s.get idx := by
  unfold getLoop at h
  split at h
  · exact absurd h (by simp)
  · rename_i i hrn
    split at h
    · exact absurd h (by simp)
    · rename_i j hrm
      obtain ⟨hi0, himod⟩ := reduceNeg_sound _ _ _ _ hrn
      obtain ⟨hjlt, hjmod⟩ := reduceMod_sound _ _ _ _ hrm
      have h1 : j = i.toNat % s.values.length := by
        rw [← Nat.mod_eq_of_lt hjlt, hjmod]
      have h2 : ((i.toNat % s.values.length : Nat) : Int) =
          idx % (s.values.length : Int) := by
        push_cast
        rw [Int.toNat_of_nonneg hi0, himod]
      have h3 : j = (idx % (s.values.length : Int)).toNat := by
        rw [h1, ← h2, Int.toNat_ofNat]
      rw [List.getElem?_eq_getElem hjlt] at h
      simp only [Option.some.injEq] at h
      rw [← h, get_eq_getD, ← h3, List.getD_eq_getElem?_getD,
        List.getElem?_eq_getElem hjlt, Option.getD_some]

/-- On a non-empty buffer the source loops terminate for every index. -/
lemma getLoop_terminates (s : PeriodicSignal α) (idx : Int)
    (hlen : 0 < s.values.length) :
    ∃ fuel v, getLoop s fuel idx = some v := by
  obtain ⟨r, hr⟩ := reduceNeg_terminates _ hlen idx.natAbs idx le_rfl
  obtain ⟨hr0, _⟩ := reduceNeg_sound _ _ _ _ hr
  obtain ⟨j, hj⟩ := reduceMod_terminates _ hlen r.toNat r.toNat le_rfl
  obtain ⟨hjlt, _⟩ := reduceMod_sound _ _ _ _ hj
  refine ⟨max idx.natAbs r.toNat, ?_⟩
  have h1 := reduceNeg_mono s.values.length idx.natAbs (max idx.natAbs r.toNat)
    idx r (le_max_left _ _) hr
  have h2 := reduceMod_mono s.values.length r.toNat (max idx.natAbs r.toNat)
    r.toNat j (le_max_right _ _) hj
  unfold getLoop
  rw [h1]
  dsimp only
  rw [h2]
  dsimp only
  rw [List.getElem?_eq_getElem hjlt]
  exact ⟨_, rfl⟩

/-- First loop on an empty buffer: a negative index loops forever. -/
lemma reduceNeg_zero_neg :
    ∀ (fuel : Nat) (idx : Int), idx < 0 → reduceNeg 0 fuel idx = none := by
  intro fuel
  induction fuel with
  | zero => intro idx h; simp [reduceNeg, h]
  | succ fuel ih =>
    intro idx h
    simp only [reduceNeg, if_pos h, Nat.cast_zero, add_zero]
    exact ih idx h

/-- Second loop on an empty buffer: every index loops forever. -/
lemma reduceMod_zero : ∀ (fuel i : Nat), reduceMod 0 fuel i = none := by
  intro fuel
  induction fuel with
  | zero => intro i; simp [reduceMod]
  | succ fuel ih => intro i; simp only [reduceMod, Nat.not_lt_zero, if_false,
      Nat.sub_zero]; exact ih i

/-- On an empty buffer the source `get` never returns. -/
lemma getLoop_empty (s : PeriodicSignal α) (idx : Int)
    (hlen : s.values.length = 0) : getDivergent s idx := by
  intro fuel
  unfold getLoop
  rw [hlen]
  by_cases hc : idx < 0
  · rw [reduceNeg_zero_neg fuel idx hc]
  · rw [reduceNeg_nonneg 0 fuel idx (not_lt.mp hc)]
    dsimp only
    rw [reduceMod_zero]

/-- A successful `find?` over `range' start len` returns the least member
satisfying the predicate. -/
lemma find?_range'_first {p : Nat → Bool} :
    ∀ (len start a : Nat), (List.range' start len).find? p = some a →
      p a = true ∧ start ≤ a ∧ ∀ b, start ≤ b → b < a → p b = false := by
  intro len
  induction len with
  | zero =>
    intro start a h
    simp [List.range'] at h
  | succ len ih =>
    intro start a h
    rw [List.range'_succ] at h
    by_cases hp : p start = true
    · rw [List.find?_cons_of_pos _ hp] at h
      cases h
      exact ⟨hp, le_rfl, fun b hb1 hb2 => absurd hb2 (by omega)⟩
    · rw [List.find?_cons_of_neg _ hp] at h
      obtain ⟨hpa, hge, hall⟩ := ih (start + 1) a h
      refine ⟨hpa, by omega, fun b hb1 hb2 => ?_⟩
      rcases Nat.eq_or_lt_of_le hb1 with heq | hlt
      · rw [← heq]
        revert hp
        cases p start <;> simp
      · exact hall b (by omega) hb2

/-- A failed `find?` over `range' start len` means no member satisfies
the predicate. -/
lemma find?_range'_none {p : Nat → Bool} (len start : Nat)
    (h : (List.range' start len).find? p = none) :
    ∀ b, start ≤ b → b < start + len → p b = false := by
  intro b hb1 hb2
  have hmem : b ∈ List.range' start len := by
    rw [List.mem_range']
    exact ⟨b - start, by omega, by omega⟩
  have hnb := List.find?_eq_none.mp h b hmem
  revert hnb
  cases p b <;> simp

/-- For a positive divisor `d` of the length, the window-comparison loop
accepts exactly when the buffer repeats with period `d` pointwise. -/
lemma windowsMatch_iff [DecidableEq α] (values : List α) (d : Nat)
    (hd : 0 < d) (hdvd : d ∣ values.length) :
    windowsMatch values d = true ↔
      ∀ i < values.length, values.getD i 0 = values.getD (i % d) 0 := by
  obtain ⟨m, hm⟩ := hdvd
  have hnd : values.length / d = m := by rw [hm, Nat.mul_div_cancel_left _ hd]
  unfold windowsMatch
  rw [List.all_eq_true]
  constructor
  · intro hall i hi
    have hr : i % d < d := Nat.mod_lt i hd
    by_cases hq : i / d = 0
    · have hieq : i % d = i := by
        conv_rhs => rw [← Nat.div_add_mod i d]
        rw [hq, Nat.mul_zero, Nat.zero_add]
      rw [hieq]
    · have hqm : i / d < m := by
        rw [← hnd]
        exact Nat.div_lt_div_of_lt_of_dvd ⟨m, hm⟩ hi
      obtain ⟨q1, hq1⟩ : ∃ q1, i / d = q1 + 1 :=
        ⟨i / d - 1, (Nat.succ_pred_eq_of_pos (Nat.pos_of_ne_zero hq)).symm⟩
      have hmem : d * (q1 + 1) ∈ List.range' d (values.length / d - 1) d := by
        rw [List.mem_range', hnd]
        exact ⟨q1, by omega, by ring⟩
      have hwin := hall _ hmem
      rw [decide_eq_true_eq] at hwin
      have h1 := congrArg (fun l : List α => l[i % d]?) hwin
      dsimp only at h1
      rw [List.getElem?_take, if_pos hr, List.getElem?_drop,
        List.getElem?_take, if_pos hr, ← hq1, Nat.div_add_mod i d] at h1
      rw [List.getD_eq_getElem?_getD, List.getD_eq_getElem?_getD, h1]
  · intro hpt offset hoff
    rw [List.mem_range'] at hoff
    obtain ⟨t, ht, rfl⟩ := hoff
    have hm2 : 2 ≤ m := by omega
    have htm : t + 2 ≤ m := by omega
    have hB : d * (t + 2) ≤ d * m := Nat.mul_le_mul_left d htm
    have hdd : d * (t + 2) = d + d * t + d := by ring
    rw [decide_eq_true_eq]
    apply List.ext_getElem?
    intro r
    rw [List.getElem?_take, List.getElem?_take]
    by_cases hrd : r < d
    · rw [if_pos hrd, if_pos hrd, List.getElem?_drop]
      have hb1 : d + d * t + r < values.length := by rw [hm]; omega
      have hb2 : r < values.length := by rw [hm]; omega
      have hmod : (d + d * t + r) % d = r := by
        rw [show d + d * t + r = r + d * (1 + t) from by ring,
          Nat.add_mul_mod_self_left, Nat.mod_eq_of_lt hrd]
      have h0 := hpt (d + d * t + r) hb1
      rw [hmod, List.getD_eq_getElem _ _ hb1, List.getD_eq_getElem _ _ hb2] at h0
      rw [List.getElem?_eq_getElem hb1, List.getElem?_eq_getElem hb2, h0]
    · rw [if_neg hrd, if_neg hrd]

/-- C3 counterexample: the empty-buffer `PeriodicSignal` is not rejected —
`new []` yields an instance of size 0, and `get` on it never returns
(no iteration bound makes the index-reduction loops finish), instead of
aborting. -/
theorem periodic_empty_counterexample :
    (new ([] : List ℤ)).size = 0 ∧ getDivergent (new ([] : List ℤ)) 0 :=
  ⟨rfl, getLoop_empty (new ([] : List ℤ)) 0 rfl⟩

/-- C3 (amended): construction never rejects a buffer (it wraps exactly
the given values, with no emptiness check); on an empty signal `get`
fails to return — the loops run forever — rather than aborting; on every
non-empty signal `get` terminates with a value for every integer index. -/
theorem periodic_empty_behavior (s : PeriodicSignal α) (idx : Int) :
    (∀ l : List α, (new l).values = l) ∧
    (0 < s.size → ∃ fuel, getLoop s fuel idx = some (s.get idx)) ∧
    (s.size = 0 → getDivergent s idx) := by
  refine ⟨fun l => rfl, fun h => ?_, fun h => getLoop_empty s idx h⟩
  obtain ⟨fuel, v, hv⟩ := getLoop_terminates s idx h
  exact ⟨fuel, by rw [hv, getLoop_some_eq s idx fuel v hv]⟩

/-- Witness for C3 (amended) on the signal `[1,2,3,4]` at index `-1`. -/
theorem periodic_empty_behavior_witness :
    0 < (new ([1,2,3,4] : List ℤ)).size ∧
    ∃ fuel, getLoop (new ([1,2,3,4] : List ℤ)) fuel (-1) =
      some ((new ([1,2,3,4] : List ℤ)).get (-1)) :=
  ⟨by decide,
   (periodic_empty_behavior (new ([1,2,3,4] : List ℤ)) (-1)).2.1 (by decide)⟩

/-- C7: whenever the source `get` returns on a non-empty signal it returns
`buffer[((idx mod n) + n) mod n]`; the terminating value `get` equals that
formula; and the signal is invariant under shifts by whole periods,
negative indices included. -/
theorem periodic_get_mod_spec (s : PeriodicSignal α) (idx : Int)
    (_h : 0 < s.size) :
    (∀ fuel v, getLoop s fuel idx = some v →
      v = s.values.getD
        ((idx % (s.size : Int) + (s.size : Int)) % (s.size : Int)).toNat 0) ∧
    s.get idx = s.values.getD
      ((idx % (s.size : Int) + (s.size : Int)) % (s.size : Int)).toNat 0 ∧
    (∀ k : Int, s.get (idx + k * (s.size : Int)) = s.get idx) := by
  simp only [size]
  have hmod : (idx % (s.values.length : Int) + (s.values.length : Int)) %
      (s.values.length : Int) = idx % (s.values.length : Int) := by
    have h1 := Int.add_mul_emod_self (a := idx % (s.values.length : Int))
      (b := 1) (c := ((s.values.length : Int)))
    simp only [one_mul] at h1
    rw [h1, Int.emod_emod_of_dvd _ dvd_rfl]
  refine ⟨?_, ?_, ?_⟩
  · intro fuel v hv
    rw [getLoop_some_eq s idx fuel v hv, get_eq_getD, hmod]
  · rw [get_eq_getD, hmod]
  · intro k
    rw [get_eq_getD, get_eq_getD, Int.add_mul_emod_self]

/-- Witness for C7 on `[1,2,3,4]` at index `-1`, shifted by 100 periods. -/
theorem periodic_get_mod_spec_witness :
    0 < (new ([1,2,3,4] : List ℤ)).size ∧
    (new ([1,2,3,4] : List ℤ)).get
        (-1 + 100 * (((new ([1,2,3,4] : List ℤ)).size : Nat) : Int)) =
      (new ([1,2,3,4] : List ℤ)).get (-1) :=
  ⟨by decide,
   (periodic_get_mod_spec (new ([1,2,3,4] : List ℤ)) (-1) (by decide)).2.2 100⟩

/-- C4: `period()` is the least positive divisor `d` of the size such that
the buffer repeats with period `d` pointwise (`buffer[i] = buffer[i mod d]`
for all `i < n`); in particular it always divides the size, and is `n`
itself exactly when no proper divisor qualifies. -/
theorem periodic_period_spec [DecidableEq α] (s : PeriodicSignal α)
    (h : 0 < s.size) :
    (0 < s.period ∧ s.period ∣ s.size ∧
      ∀ i < s.size, s.values.getD i 0 = s.values.getD (i % s.period) 0) ∧
    (∀ d, 0 < d → d ∣ s.size →
      (∀ i < s.size, s.values.getD i 0 = s.values.getD (i % d) 0) →
      s.period ≤ d) := by
  have hqual : ∀ d, 0 < d → d ∣ s.size →
      ((∀ i < s.size, s.values.getD i 0 = s.values.getD (i % d) 0) ↔
        (decide (s.size % d = 0) && windowsMatch s.values d) = true) := by
    intro d hd hdvd
    rw [Bool.and_eq_true, decide_eq_true_eq,
      windowsMatch_iff s.values d hd hdvd]
    exact ⟨fun hp => ⟨Nat.mod_eq_zero_of_dvd hdvd, hp⟩, fun hp => hp.2⟩
  cases hf : (List.range' 1 (s.size - 1)).find?
      (fun d => decide (s.size % d = 0) && windowsMatch s.values d) with
  | some d =>
    have hper : s.period = d := by unfold period; rw [hf]
    obtain ⟨hpd, hd1, hmin⟩ := find?_range'_first _ _ _ hf
    simp only [Bool.and_eq_true, decide_eq_true_eq] at hpd
    have hdvd : d ∣ s.size := Nat.dvd_iff_mod_eq_zero.mpr hpd.1
    have hpt := (windowsMatch_iff s.values d (by omega) hdvd).mp hpd.2
    rw [hper]
    refine ⟨⟨by omega, hdvd, hpt⟩, ?_⟩
    intro e he hedvd hept
    by_contra h2
    have hlt : e < d := by omega
    have hfalse := hmin e (by omega) hlt
    have htrue := (hqual e he hedvd).mp hept
    simp only at hfalse
    simp [hfalse] at htrue
  | none =>
    have hper : s.period = s.size := by unfold period; rw [hf]
    have hnone := find?_range'_none _ _ hf
    rw [hper]
    refine ⟨⟨h, dvd_rfl, fun i hi => by rw [Nat.mod_eq_of_lt hi]⟩, ?_⟩
    intro e he hedvd hept
    by_contra h2
    have hfalse := hnone e (by omega) (by omega)
    have htrue := (hqual e he hedvd).mp hept
    simp only at hfalse
    simp [hfalse] at htrue

/-- Witness for C4 on the repository's test signal `[1,0,1,0]`:
the computed period divides the size. -/
theorem periodic_period_spec_witness :
    0 < (new ([1,0,1,0] : List ℤ)).size ∧
    (new ([1,0,1,0] : List ℤ)).period ∣ (new ([1,0,1,0] : List ℤ)).size :=
  ⟨by decide, (periodic_period_spec (new ([1,0,1,0] : List ℤ)) (by decide)).1.2.1⟩

end PeriodicSignal

/-- C6: `autocorrelation` returns a new `PeriodicSignal` of exactly the
input's length whose entry at each lag `k < n` is `(1/n)` times the sum
over `i < n` of `sig.get(i) * sig.get(i+k)`, accumulated in ascending `i`
with the division last; the input is untouched (the embedding is a pure
function of `sig`). -/
theorem autocorrelation_spec {α : Type} [Field α] (sig : PeriodicSignal α) :
    (autocorrelation sig).size = sig.size ∧
    ∀ k : Nat, k < sig.size →
      (autocorrelation sig).values.getD k 0 =
        (1 / (sig.size : α)) *
          ∑ i ∈ Finset.range sig.size,
            sig.get (i : Int) * sig.get ((i + k : Nat) : Int) := by
  constructor
  · simp [autocorrelation, PeriodicSignal.size]
  · intro k hk
    have hk2 : k < ((List.range sig.size).map (fun k =>
        ((List.range sig.size).foldl
            (fun (val : α) (i : Nat) =>
              val + sig.get (i : Int) * sig.get ((i + k : Nat) : Int))
            0) / (sig.size : α))).length := by
      simpa using hk
    unfold autocorrelation
    rw [List.getD_eq_getElem _ _ hk2]
    simp only [List.getElem_map, List.getElem_range]
    rw [foldl_add_eq_sum (fun i => sig.get (i : Int) *
        sig.get ((i + k : Nat) : Int)) (List.range sig.size) 0,
      zero_add, ← sum_range_eq_list_sum, one_div_mul_eq_div]

/-- Witness for C6 on the rational signal `[1,2]` at lag 1. -/
theorem autocorrelation_spec_witness :
    (1 : Nat) < (PeriodicSignal.new ([1,2] : List ℚ)).size ∧
    (autocorrelation (PeriodicSignal.new ([1,2] : List ℚ))).values.getD 1 0 =
      (1 / ((PeriodicSignal.new ([1,2] : List ℚ)).size : ℚ)) *
        ∑ i ∈ Finset.range (PeriodicSignal.new ([1,2] : List ℚ)).size,
          (PeriodicSignal.new ([1,2] : List ℚ)).get (i : Int) *
            (PeriodicSignal.new ([1,2] : List ℚ)).get ((i + 1 : Nat) : Int) :=
  ⟨by decide,
   (autocorrelation_spec (PeriodicSignal.new ([1,2] : List ℚ))).2 1 (by decide)⟩

namespace MaximumLengthSequence

/-- The `to_vector` loop emits exactly as many samples as its bound. -/
lemma toVectorAux_length {α : Type} (coeffs : List Bool) (vf vt : α) :
    ∀ (k : Nat) (st : List Bool), (toVectorAux coeffs vf vt st k).length = k := by
  intro k
  induction k with
  | zero => intro st; simp [toVectorAux]
  | succ k ih => intro st; simp [toVectorAux, ih]

/-- The `to_vector` loop emits exactly the outputs of `k` successive
`next()` calls started from the same state. -/
lemma toVectorAux_eq_nextIter {α : Type} (coeffs : List Bool) (vf vt : α) :
    ∀ (k : Nat) (st : List Bool),
      toVectorAux coeffs vf vt st k =
        (nextIter (⟨coeffs, st, vf, vt⟩ : MaximumLengthSequence α) k).1 := by
  intro k
  induction k with
  | zero => intro st; simp [toVectorAux, nextIter]
  | succ k ih => intro st; simp [toVectorAux, nextIter, next, ih]

/-- C2 counterexample: `to_vector` starts from the state held at call
time, not from the construction-time state — after one `next()` call on
the degree-3 LFSR of the repository's tests, `to_vector` yields a rotated
sequence, not the original one. -/
theorem mls_to_vector_counterexample :
    to_vector (next (⟨[true, false], [false, true, true], 0, 1⟩ :
        MaximumLengthSequence ℤ)).2 ≠
      to_vector (⟨[true, false], [false, true, true], 0, 1⟩ :
        MaximumLengthSequence ℤ) := by
  decide

/-- C2 (amended): `to_vector()` consumes the instance without mutating it
and returns the `2^m - 1` outputs of repeatedly sampling the output bit
and advancing, starting from a private copy of the state held at the time
of the call (so `next()` calls made beforehand shift the result). -/
theorem mls_to_vector_spec {α : Type} (m : MaximumLengthSequence α) :
    (to_vector m).length = 2 ^ m.state.length - 1 ∧
    to_vector m = (nextIter m (2 ^ m.state.length - 1)).1 := by
  exact ⟨toVectorAux_length m.coefficients m.val_false m.val_true _ m.state,
    toVectorAux_eq_nextIter m.coefficients m.val_false m.val_true _ m.state⟩

/-- Folding conditional XORs equals one XOR with the fold of the selected
values. -/
lemma foldl_xor_eq_filter (g p : Nat → Bool) :
    ∀ (l : List Nat) (a : Bool),
      l.foldl (fun f i => if p i then xor f (g i) else f) a =
        xor a (((l.filter p).map g).foldr xor false) := by
  intro l
  induction l with
  | nil => intro a; simp
  | cons x xs ih =>
    intro a
    by_cases hp : p x = true
    · simp [hp, List.filter_cons, ih, Bool.xor_assoc]
    · simp [hp, List.filter_cons, ih]

/-- C5: `next()` emits `val_true` exactly when `state[m-1]` is set, the
new first bit is `state[m-1]` XOR the taps' XOR (`state[m-2-i]` for every
set `coefficients[i]`), the other bits shift (`new_state[k] = state[k-1]`),
and the repository's degree-3 example emits exactly `[1,1,0,0,1,0,1]`. -/
theorem mls_next_spec {α : Type} (m : MaximumLengthSequence α) :
    (next m).1 = (if m.state.getD (m.state.length - 1) false
      then m.val_true else m.val_false) ∧
    (next m).2.state.getD 0 false =
      xor (m.state.getD (m.state.length - 1) false)
        (tapFold m.state m.coefficients) ∧
    (∀ k, 1 ≤ k → k < m.state.length →
      (next m).2.state.getD k false = m.state.getD (k - 1) false) ∧
    (nextIter (⟨[true, false], [false, true, true], 0, 1⟩ :
        MaximumLengthSequence ℤ) 7).1 = [1, 1, 0, 0, 1, 0, 1] := by
  refine ⟨rfl, ?_, ?_, by decide⟩
  · show (next_state m.state m.coefficients).getD 0 false = _
    unfold next_state tapFold
    rw [List.getD_cons_zero,
      foldl_xor_eq_filter (fun i => m.state.getD (m.state.length - (i + 2)) false)
        (fun i => m.coefficients.getD i false) (List.range (m.state.length - 1))
        (m.state.getD (m.state.length - 1) false)]
    have hfun : (fun i => m.state.getD (m.state.length - (i + 2)) false) =
        (fun i => m.state.getD (m.state.length - 2 - i) false) := by
      funext i
      rw [Nat.sub_sub, Nat.add_comm]
    rw [hfun]
  · intro k hk1 hk2
    show (next_state m.state m.coefficients).getD k false = _
    unfold next_state
    obtain ⟨k1, rfl⟩ : ∃ k1, k = k1 + 1 := ⟨k - 1, by omega⟩
    rw [List.getD_cons_succ]
    simp only [Nat.add_sub_cancel]
    rw [List.getD_eq_getElem _ _ (by simp [List.length_take]; omega),
      List.getD_eq_getElem _ _ (by omega), List.getElem_take]

/-- Witness for C5: the shift conjunct on the degree-3 example at `k = 2`. -/
theorem mls_next_spec_witness :
    (next (⟨[true, false], [false, true, true], 0, 1⟩ :
        MaximumLengthSequence ℤ)).2.state.getD 2 false =
      (⟨[true, false], [false, true, true], 0, 1⟩ :
        MaximumLengthSequence ℤ).state.getD 1 false :=
  (mls_next_spec (⟨[true, false], [false, true, true], 0, 1⟩ :
      MaximumLengthSequence ℤ)).2.2.1 2 (by decide) (by decide)

/-- A successful `new` establishes the state-length invariant. -/
lemma new_invariant {α : Type} [CommRing α] (c st : List Bool) (m : MaximumLengthSequence α)
    (h : new c st = some m) : Invariant m := by
  unfold new at h
  split_ifs at h with h1 h2
  cases h
  exact ⟨h2.symm, List.ne_nil_of_length_pos h1⟩

/-- Embeds `next_state` preserves the state length for non-empty states. -/
lemma next_state_length (st coeffs : List Bool) (h : st ≠ []) :
    (next_state st coeffs).length = st.length := by
  have hp : 0 < st.length := List.length_pos.mpr h
  unfold next_state
  simp [List.length_take]
  omega

/-- C8: the invariant `state.length = coefficients.length + 1 ∧ state ≠ []`
is established by `new` and `new_predefined`, preserved by `next` (which
keeps the state length) and by `set_vals` (which leaves state and
coefficients untouched), and under it every index used by
`next`/`next_state`/`to_vector` is in bounds. -/
theorem mls_invariant_spec {α : Type} [CommRing α] :
    (∀ m : MaximumLengthSequence α, Invariant m →
      Invariant (next m).2 ∧ (next m).2.state.length = m.state.length) ∧
    (∀ (m : MaximumLengthSequence α) (vf vt : α),
      (set_vals m vf vt).state = m.state ∧
      (set_vals m vf vt).coefficients = m.coefficients) ∧
    (∀ (c st : List Bool) (m : MaximumLengthSequence α),
      new c st = some m → Invariant m) ∧
    (∀ (o : Nat) (st : List Bool) (m : MaximumLengthSequence α),
      new_predefined o st = some m → Invariant m) ∧
    (∀ m : MaximumLengthSequence α, Invariant m →
      m.state.length - 1 < m.state.length ∧
      ∀ i, i < m.state.length - 1 →
        i < m.coefficients.length ∧
        m.state.length - (i + 2) < m.state.length) := by
  refine ⟨?_, ?_, fun c st m h => new_invariant c st m h, ?_, ?_⟩
  · intro m hm
    obtain ⟨hlen, hne⟩ := hm
    have hns := next_state_length m.state m.coefficients hne
    refine ⟨⟨by rw [show (next m).2.state = next_state m.state m.coefficients
        from rfl, hns]; exact hlen, ?_⟩, hns⟩
    show next_state m.state m.coefficients ≠ []
    exact List.ne_nil_of_length_pos (by rw [hns]; exact List.length_pos.mpr hne)
  · intro m vf vt
    exact ⟨rfl, rfl⟩
  · intro o st m h
    unfold new_predefined at h
    split_ifs at h <;> exact new_invariant _ _ _ h
  · intro m hm
    obtain ⟨hlen, hne⟩ := hm
    have hp : 0 < m.state.length := List.length_pos.mpr hne
    exact ⟨by omega, fun i hi => ⟨by omega, by omega⟩⟩

/-- Witness for C8: the invariant holds after one `next()` on the
degree-3 example, with the state length preserved. -/
theorem mls_invariant_spec_witness :
    Invariant (next (⟨[true, false], [false, true, true], 0, 1⟩ :
        MaximumLengthSequence ℤ)).2 ∧
    (next (⟨[true, false], [false, true, true], 0, 1⟩ :
        MaximumLengthSequence ℤ)).2.state.length =
      (⟨[true, false], [false, true, true], 0, 1⟩ :
        MaximumLengthSequence ℤ).state.length :=
  mls_invariant_spec.1
    (⟨[true, false], [false, true, true], 0, 1⟩ : MaximumLengthSequence ℤ)
    ⟨by decide, by decide⟩

/-- C10: `new` fails exactly on an empty state or a length mismatch and
otherwise constructs the instance with symbols zero/one; `new_predefined`
succeeds only for orders 1..10 and fails for every other order. -/
theorem mls_new_spec {α : Type} [CommRing α] :
    (∀ c st : List Bool, new (α := α) c st = none ↔
      st = [] ∨ c.length + 1 ≠ st.length) ∧
    (∀ (c st : List Bool) (m : MaximumLengthSequence α),
      new c st = some m →
      m.coefficients = c ∧ m.state = st ∧ m.val_false = 0 ∧ m.val_true = 1) ∧
    (∀ (o : Nat) (st : List Bool) (m : MaximumLengthSequence α),
      new_predefined o st = some m → 1 ≤ o ∧ o ≤ 10) ∧
    (∀ (o : Nat) (st : List Bool), o < 1 ∨ 10 < o →
      new_predefined (α := α) o st = none) := by
  refine ⟨?_, ?_, ?_, ?_⟩
  · intro c st
    unfold new
    split_ifs with h1 h2
    · simp only [reduceCtorEq, false_iff]
      push_neg
      exact ⟨List.ne_nil_of_length_pos h1, h2⟩
    · simp only [true_iff]
      exact Or.inr h2
    · simp only [true_iff]
      exact Or.inl (List.length_eq_zero.mp (by omega))
  · intro c st m h
    unfold new at h
    split_ifs at h
    cases h
    exact ⟨rfl, rfl, rfl, rfl⟩
  · intro o st m h
    unfold new_predefined at h
    split_ifs at h <;> omega
  · intro o st ho
    unfold new_predefined
    split_ifs <;> first | rfl | (exfalso; omega)

/-- Witness for C10: a length mismatch fails, order 11 fails, and the
successful order-3 construction has orders within 1..10. -/
theorem mls_new_spec_witness :
    new (α := ℤ) [true, false] [true] = none ∧
    new_predefined (α := ℤ) 11 [true] = none ∧
    (1 ≤ 3 ∧ 3 ≤ 10) :=
  ⟨(mls_new_spec.1 [true, false] [true]).mpr (Or.inr (by decide)),
   mls_new_spec.2.2.2 11 [true] (Or.inr (by decide)),
   mls_new_spec.2.2.1 3 [true, true, true]
     (⟨[true, false], [true, true, true], 0, 1⟩ : MaximumLengthSequence ℤ) rfl⟩

end MaximumLengthSequence

end SigProc
